import Mathlib

/-!
Verification of the causal multi-head self-attention core of the
"Build a Large Language Model from Scratch" repository.

The PyTorch source is shallowly embedded over the real numbers:
tensors become `Fin`-indexed functions into `ℝ`, floating-point
arithmetic becomes exact real arithmetic, and the IEEE value `-inf`
produced by `masked_fill_(mask, -torch.inf)` is represented by `⊥` in
`EReal`.  Fallible operations (the constructor's checks, the forward
pass's broadcast check) return `Except`.

The file is organised as definitions (the embedding) first, then the
theorems about them.
-/

noncomputable section

open Finset

namespace LLM

/-! # Definitions -/

/-! ## Extended-real helpers for `-inf` score entries

`expE` embeds the exponential applied entrywise by `torch.softmax` to a
score tensor that may contain `-inf`: `exp(-inf) = 0`.  (`⊤` never
arises from the embedded code; its value here is irrelevant junk.)

`divE` embeds IEEE division of a (possibly `-inf`) score entry by a
nonzero real scalar: `-inf / c = -inf` for `c > 0` and `+inf` for
`c < 0`.  The code only ever divides by the positive `sqrt(head_dim)`. -/

def expE (x : EReal) : ℝ :=
  if x = ⊥ then 0 else if x = ⊤ then 0 else Real.exp x.toReal

def divE (x : EReal) (c : ℝ) : EReal :=
  if x = ⊥ then (if 0 < c then ⊥ else if c < 0 then ⊤ else 0)
  else if x = ⊤ then (if 0 < c then ⊤ else if c < 0 then ⊥ else 0)
  else (((x.toReal / c : ℝ) : EReal))

/-! ## Softmax

`torch.softmax(s, dim=-1)` along the last axis.  The source relies on
torch's numerically stable implementation (row-max subtraction), which
is mathematically the plain formula below; over exact reals they agree.
`softmaxE` is the same function on score rows that may contain `-inf`
(the post-`masked_fill_` tensor): such entries contribute `exp(-inf)=0`.
-/

def softmaxR {n : ℕ} (s : Fin n → ℝ) : Fin n → ℝ :=
  fun j => Real.exp (s j) / ∑ k, Real.exp (s k)

def softmaxE {n : ℕ} (s : Fin n → EReal) : Fin n → ℝ :=
  fun j => expE (s j) / ∑ k, expE (s k)

/-! ## Head-index bookkeeping

`view(b, n, num_heads, head_dim)` reinterprets a row-major `d_out`-wide
feature axis (`d_out = num_heads * head_dim`) as a pair of axes: flat
position `f` corresponds to head `f / head_dim` and within-head feature
`f % head_dim`; conversely `(h, d)` corresponds to `h * head_dim + d`. -/

def finPair {nH hd : ℕ} (h : Fin nH) (d : Fin hd) : Fin (nH * hd) :=
  ⟨h.1 * hd + d.1, by
    calc h.1 * hd + d.1 < h.1 * hd + hd := Nat.add_lt_add_left d.2 _
    _ = (h.1 + 1) * hd := by ring
    _ ≤ nH * hd := Nat.mul_le_mul_right hd h.2⟩

def finHead {nH hd : ℕ} (f : Fin (nH * hd)) : Fin nH :=
  ⟨f.1 / hd, Nat.div_lt_of_lt_mul (lt_of_lt_of_eq f.2 (Nat.mul_comm nH hd))⟩

def finSub {nH hd : ℕ} (f : Fin (nH * hd)) : Fin hd :=
  ⟨f.1 % hd, Nat.mod_lt _ (by
    rcases Nat.eq_zero_or_pos hd with h | h
    · exfalso
      subst h
      have hf := f.2
      simp at hf
    · exact h)⟩

/-! ## Linear projection

`torch.nn.Linear(d_in, d_out)` stores `weight : [d_out, d_in]` and
`bias : [d_out]` and computes `x @ weight.T + bias`.  A layer built
with `bias=False` is represented by a zero `bias` field (the two are
extensionally equal forward functions). -/

structure Linear (dIn dOut : ℕ) where
  weight : Fin dOut → Fin dIn → ℝ
  bias : Fin dOut → ℝ

def Linear.forward {dIn dOut : ℕ} (L : Linear dIn dOut) (x : Fin dIn → ℝ) :
    Fin dOut → ℝ :=
  fun o => (∑ k, x k * L.weight o k) + L.bias o

/-! ## Causal mask

`torch.triu(torch.ones(context_length, context_length), diagonal=1)`:
ones strictly above the diagonal, zeros elsewhere.  The module stores it
once (`register_buffer`) and the forward pass slices it with
`self.mask.bool()[:num_tokens, :num_tokens]`.

Python slicing clamps: for `num_tokens > context_length` the slice keeps
all `context_length` rows/columns, so the sliced mask has side
`min num_tokens context_length`.  `masked_fill_` then broadcasts the
sliced mask over the `[num_tokens, num_tokens]` score matrix, which is
legal exactly when the slice side is `num_tokens` or `1`; a size-1 mask
broadcasts by repeating its single entry `mask[0][0] = 0` (no masking).
`effMask` is the effective boolean mask entry under these semantics for
the two legal cases (the illegal case raises, see `forwardChecked`). -/

def triuOnes (c : ℕ) : Fin c → Fin c → ℝ :=
  fun i j => if (i : ℕ) < (j : ℕ) then 1 else 0

def effMask (ctx n : ℕ) (i j : Fin n) : Prop :=
  if h : min n ctx = n then
    triuOnes ctx ⟨i.1, by have := i.2; omega⟩ ⟨j.1, by have := j.2; omega⟩ ≠ 0
  else if h1 : min n ctx = 1 then
    triuOnes ctx ⟨0, by omega⟩ ⟨0, by omega⟩ ≠ 0
  else False

instance effMaskDecidable {ctx n : ℕ} (i j : Fin n) : Decidable (effMask ctx n i j) := by
  unfold effMask
  infer_instance

/-! ## MultiHeadAttention

The module's learnable state.  `d_out = num_heads * head_dim` is kept in
the types as `nH * hd`, which encodes the constructor's divisibility
assertion; the constructor itself (with the raw integer arguments and
its checks) is embedded separately as `mhaInit` below.

Dropout (`self.dropout`, applied to the attention weights) is threaded
as an explicit transform `dw`; disabling dropout (eval mode / rate 0)
makes it the identity. -/

structure MultiHeadAttention (dIn nH hd ctx : ℕ) where
  W_query : Linear dIn (nH * hd)
  W_key : Linear dIn (nH * hd)
  W_value : Linear dIn (nH * hd)
  out_proj : Linear (nH * hd) (nH * hd)

namespace MultiHeadAttention

variable {dIn nH hd ctx b n : ℕ}

/-- `view(b, num_tokens, num_heads, head_dim)` followed by
`transpose(1, 2)`: reinterpret the flat feature axis head-major and move
the head axis before the token axis. -/
def splitHeads (T : Fin b → Fin n → Fin (nH * hd) → ℝ) :
    Fin b → Fin nH → Fin n → Fin hd → ℝ :=
  fun bi h t d => T bi t (finPair h d)

/-- `transpose(1, 2)` followed by `contiguous().view(b, num_tokens, d_out)`:
flatten the `[num_heads, head_dim]` pair back into the feature axis. -/
def mergeHeads (C : Fin b → Fin nH → Fin n → Fin hd → ℝ) :
    Fin b → Fin n → Fin (nH * hd) → ℝ :=
  fun bi t f => C bi (finHead f) t (finSub f)

variable (M : MultiHeadAttention dIn nH hd ctx)

/-- `queries = self.W_query(x)`, shape `(b, num_tokens, d_out)`. -/
def queries (X : Fin b → Fin n → Fin dIn → ℝ) : Fin b → Fin n → Fin (nH * hd) → ℝ :=
  fun bi t => M.W_query.forward (X bi t)

/-- `keys = self.W_key(x)`. -/
def keys (X : Fin b → Fin n → Fin dIn → ℝ) : Fin b → Fin n → Fin (nH * hd) → ℝ :=
  fun bi t => M.W_key.forward (X bi t)

/-- `values = self.W_value(x)`. -/
def values (X : Fin b → Fin n → Fin dIn → ℝ) : Fin b → Fin n → Fin (nH * hd) → ℝ :=
  fun bi t => M.W_value.forward (X bi t)

def queriesH (X : Fin b → Fin n → Fin dIn → ℝ) : Fin b → Fin nH → Fin n → Fin hd → ℝ :=
  splitHeads (M.queries X)

def keysH (X : Fin b → Fin n → Fin dIn → ℝ) : Fin b → Fin nH → Fin n → Fin hd → ℝ :=
  splitHeads (M.keys X)

def valuesH (X : Fin b → Fin n → Fin dIn → ℝ) : Fin b → Fin nH → Fin n → Fin hd → ℝ :=
  splitHeads (M.values X)

/-- `attn_scores = queries @ keys.transpose(2, 3)`: per batch element and
per head, the dot product of query row `i` with key row `j`. -/
def attnScores (X : Fin b → Fin n → Fin dIn → ℝ) :
    Fin b → Fin nH → Fin n → Fin n → ℝ :=
  fun bi h i j => ∑ d, M.queriesH X bi h i d * M.keysH X bi h j d

/-- `attn_scores.masked_fill_(mask_bool, -torch.inf)`: scores with the
masked entries replaced by `-inf` (the `⊥` of `EReal`). -/
def maskedScores (X : Fin b → Fin n → Fin dIn → ℝ) :
    Fin b → Fin nH → Fin n → Fin n → EReal :=
  fun bi h i j =>
    if effMask ctx n i j then ⊥ else ((M.attnScores X bi h i j : ℝ) : EReal)

/-- `attn_weights = torch.softmax(attn_scores / keys.shape[-1]**0.5, dim=-1)`:
after the in-place mask fill, `keys.shape[-1]` is `head_dim`, and
`x**0.5 = sqrt x` on nonnegative floats.  This is the attention-weight
matrix before dropout. -/
def attnWeights (X : Fin b → Fin n → Fin dIn → ℝ) :
    Fin b → Fin nH → Fin n → Fin n → ℝ :=
  fun bi h i =>
    softmaxE (fun j => divE (M.maskedScores X bi h i j) (Real.sqrt hd))

/-- `attn_weights @ values` after `attn_weights = self.dropout(attn_weights)`:
the per-head context rows.  `dw` is the dropout transform. -/
def headContext
    (dw : (Fin b → Fin nH → Fin n → Fin n → ℝ) → Fin b → Fin nH → Fin n → Fin n → ℝ)
    (X : Fin b → Fin n → Fin dIn → ℝ) : Fin b → Fin nH → Fin n → Fin hd → ℝ :=
  fun bi h t d => ∑ j, dw (M.attnWeights X) bi h t j * M.valuesH X bi h j d

/-- `MultiHeadAttention.forward`: merge the head contexts back into the
feature axis and apply `self.out_proj`. -/
def forward
    (dw : (Fin b → Fin nH → Fin n → Fin n → ℝ) → Fin b → Fin nH → Fin n → Fin n → ℝ)
    (X : Fin b → Fin n → Fin dIn → ℝ) : Fin b → Fin n → Fin (nH * hd) → ℝ :=
  fun bi t => M.out_proj.forward (mergeHeads (M.headContext dw X) bi t)

end MultiHeadAttention

/-! ## Errors raised by the embedded Python/torch code -/

inductive PyError where
  /-- `d_out % num_heads` with `num_heads = 0`. -/
  | zeroDivisionError
  /-- the constructor's `assert d_out % num_heads == 0`. -/
  | assertionError
  /-- torch shape errors: negative tensor dimension, or an illegal
  `masked_fill_` broadcast. -/
  | runtimeError
  /-- `nn.Dropout(p)` with `p` outside `[0, 1]`. -/
  | valueError
  deriving DecidableEq

/-- `MultiHeadAttention.__init__(d_in, d_out, context_length, dropout,
num_heads, qkv_bias)`, over Python integers (`%` is `Int.fmod`, `//` is
`Int.fdiv`, both floored as in Python), returning the derived
`head_dim = d_out // num_heads` on success.  The checks fire in source
order: the `assert` (whose `%` raises `ZeroDivisionError` for
`num_heads = 0`), then the `nn.Linear` constructions (torch rejects
negative sizes; size 0 is legal), then `nn.Dropout` (rejects rates
outside `[0, 1]`), then `torch.ones(context_length, context_length)`
(rejects a negative size). -/
def mhaInit (dIn dOut context_length : ℤ) (dropout : ℝ) (num_heads : ℤ) :
    Except PyError ℤ :=
  if num_heads = 0 then .error .zeroDivisionError
  else if Int.fmod dOut num_heads = 0 then
    (if dIn < 0 ∨ dOut < 0 then .error .runtimeError
     else if dropout < 0 ∨ 1 < dropout then .error .valueError
     else if context_length < 0 then .error .runtimeError
     else .ok (Int.fdiv dOut num_heads))
  else .error .assertionError

namespace MultiHeadAttention

variable {dIn nH hd ctx b n : ℕ}

/-- `MultiHeadAttention.forward` including the one shape check the
mask-slicing idiom performs at runtime: `masked_fill_` requires the
sliced `[min n ctx, min n ctx]` mask to broadcast over the
`[n, n]` score matrix, i.e. the slice side must equal `n` or `1`;
otherwise torch raises a `RuntimeError` and no result is produced. -/
def forwardChecked (M : MultiHeadAttention dIn nH hd ctx)
    (dw : (Fin b → Fin nH → Fin n → Fin n → ℝ) → Fin b → Fin nH → Fin n → Fin n → ℝ)
    (X : Fin b → Fin n → Fin dIn → ℝ) :
    Except PyError (Fin b → Fin n → Fin (nH * hd) → ℝ) :=
  if min n ctx = n ∨ min n ctx = 1 then .ok (M.forward dw X)
  else .error .runtimeError

end MultiHeadAttention

/-! ## LayerNorm

`self.eps = 1e-5`; `mean = x.mean(dim=-1, keepdim=True)`;
`var = x.var(dim=-1, keepdim=True, unbiased=False)` (biased/population
variance); `norm_x = (x - mean) / torch.sqrt(var + eps)`; output
`scale * norm_x + shift`.  All per token row. -/

def lnEps : ℝ := 1e-5

structure LayerNorm (d : ℕ) where
  scale : Fin d → ℝ
  shift : Fin d → ℝ

def rowMean {d : ℕ} (x : Fin d → ℝ) : ℝ := (∑ k, x k) / d

def rowVar {d : ℕ} (x : Fin d → ℝ) : ℝ := (∑ k, (x k - rowMean x) ^ 2) / d

def normRow {d : ℕ} (x : Fin d → ℝ) : Fin d → ℝ :=
  fun k => (x k - rowMean x) / Real.sqrt (rowVar x + lnEps)

def LayerNorm.forward {d : ℕ} (L : LayerNorm d) (x : Fin d → ℝ) : Fin d → ℝ :=
  fun k => L.scale k * normRow x k + L.shift k

/-! ## GELU and FeedForward

The tanh approximation
`0.5 * x * (1 + tanh(sqrt(2/pi) * (x + 0.044715 * x**3)))` and the
`d -> 4d -> d` two-layer block around it. -/

def gelu (x : ℝ) : ℝ :=
  0.5 * x * (1 + Real.tanh (Real.sqrt (2 / Real.pi) * (x + 0.044715 * x ^ 3)))

structure FeedForward (d : ℕ) where
  fc1 : Linear d (4 * d)
  fc2 : Linear (4 * d) d

def FeedForward.forward {d : ℕ} (F : FeedForward d) (x : Fin d → ℝ) : Fin d → ℝ :=
  F.fc2.forward (fun m => gelu (F.fc1.forward x m))

/-! ## TransformerBlock

`emb_dim = nH * hd` (the config wires `d_in = d_out = emb_dim` into the
attention module and `n_heads` must divide `emb_dim`).  The shared
`self.drop_shortcut` dropout module is threaded as the transform `ds`,
and the attention-weight dropout as `dw`. -/

structure TransformerBlock (nH hd ctx : ℕ) where
  att : MultiHeadAttention (nH * hd) nH hd ctx
  ff : FeedForward (nH * hd)
  norm1 : LayerNorm (nH * hd)
  norm2 : LayerNorm (nH * hd)

/-- `TransformerBlock.forward`, statement by statement from the source:
shortcut save, `norm1`, attention, dropout, residual add; then shortcut
save, `norm2`, feed-forward, dropout, residual add. -/
def TransformerBlock.forward {nH hd ctx b n : ℕ} (T : TransformerBlock nH hd ctx)
    (ds : (Fin b → Fin n → Fin (nH * hd) → ℝ) → Fin b → Fin n → Fin (nH * hd) → ℝ)
    (dw : (Fin b → Fin nH → Fin n → Fin n → ℝ) → Fin b → Fin nH → Fin n → Fin n → ℝ)
    (x : Fin b → Fin n → Fin (nH * hd) → ℝ) : Fin b → Fin n → Fin (nH * hd) → ℝ :=
  let shortcut := x
  let x1 := fun bi t => T.norm1.forward (x bi t)
  let x2 := T.att.forward dw x1
  let x3 := ds x2
  let x4 := fun bi t d => x3 bi t d + shortcut bi t d
  let shortcut2 := x4
  let x5 := fun bi t => T.norm2.forward (x4 bi t)
  let x6 := fun bi t => T.ff.forward (x5 bi t)
  let x7 := ds x6
  fun bi t d => x7 bi t d + shortcut2 bi t d

/-- Modelled from the spec's step order (section 4.6), for comparison
against the source's `TransformerBlock.forward`: each residual branch is
"normalization precedes the sub-layer, dropout follows it, the residual
addition is last", written directly as two nested pipeline expressions. -/
def TransformerBlock.specForward {nH hd ctx b n : ℕ} (T : TransformerBlock nH hd ctx)
    (ds : (Fin b → Fin n → Fin (nH * hd) → ℝ) → Fin b → Fin n → Fin (nH * hd) → ℝ)
    (dw : (Fin b → Fin nH → Fin n → Fin n → ℝ) → Fin b → Fin nH → Fin n → Fin n → ℝ)
    (x : Fin b → Fin n → Fin (nH * hd) → ℝ) : Fin b → Fin n → Fin (nH * hd) → ℝ :=
  let y := fun bi t d =>
    ds (T.att.forward dw (fun bj u => T.norm1.forward (x bj u))) bi t d + x bi t d
  fun bi t d =>
    ds (fun bj u => T.ff.forward (T.norm2.forward (y bj u))) bi t d + y bi t d

/-! ## The two single-head implementations (chapter 3)

`SelfAttention_v1` holds raw `[d_in, d_out]` parameter matrices and
computes `x @ W`; `SelfAttention_v2` (built with `qkv_bias=False`) holds
`nn.Linear` layers whose stored weight has layout `[d_out, d_in]` and
computes `x @ W.T`.  Both then run the same
`softmax(q @ k.T / sqrt(d_out)) @ v` pipeline, unmasked. -/

structure SelfAttention_v1 (dIn dOut : ℕ) where
  W_query : Fin dIn → Fin dOut → ℝ
  W_key : Fin dIn → Fin dOut → ℝ
  W_value : Fin dIn → Fin dOut → ℝ

def SelfAttention_v1.forward {dIn dOut n : ℕ} (A : SelfAttention_v1 dIn dOut)
    (x : Fin n → Fin dIn → ℝ) : Fin n → Fin dOut → ℝ :=
  let queries := fun t o => ∑ k, x t k * A.W_query k o
  let keys := fun t o => ∑ k, x t k * A.W_key k o
  let values := fun t o => ∑ k, x t k * A.W_value k o
  let attn_scores := fun t u => ∑ o, queries t o * keys u o
  let attn_weights := fun t => softmaxR (fun u => attn_scores t u / Real.sqrt dOut)
  fun t o => ∑ u, attn_weights t u * values u o

structure SelfAttention_v2 (dIn dOut : ℕ) where
  W_query : Fin dOut → Fin dIn → ℝ
  W_key : Fin dOut → Fin dIn → ℝ
  W_value : Fin dOut → Fin dIn → ℝ

def SelfAttention_v2.forward {dIn dOut n : ℕ} (A : SelfAttention_v2 dIn dOut)
    (x : Fin n → Fin dIn → ℝ) : Fin n → Fin dOut → ℝ :=
  let queries := fun t o => ∑ k, x t k * A.W_query o k
  let keys := fun t o => ∑ k, x t k * A.W_key o k
  let values := fun t o => ∑ k, x t k * A.W_value o k
  let attn_scores := fun t u => ∑ o, queries t o * keys u o
  let attn_weights := fun t => softmaxR (fun u => attn_scores t u / Real.sqrt dOut)
  fun t o => ∑ u, attn_weights t u * values u o

/-! ## The concrete 6 x 6 masking scenario (section 3.5.2)

`context_length = 6`;
`mask = torch.triu(torch.ones(6, 6), diagonal=1)`;
`masked = scores.masked_fill(mask.bool(), -torch.inf)` applied to an
all-ones score matrix;
`attn_weights = torch.softmax(masked / keys.shape[-1]**0.5, dim=1)` with
`keys.shape[-1] = 2` in that script. -/

def onesScores6 : Fin 6 → Fin 6 → ℝ := fun _ _ => 1

def mask6 : Fin 6 → Fin 6 → ℝ := triuOnes 6

def masked6 : Fin 6 → Fin 6 → EReal :=
  fun i j => if mask6 i j ≠ 0 then ⊥ else ((onesScores6 i j : ℝ) : EReal)

def attnW6 : Fin 6 → Fin 6 → ℝ :=
  fun i => softmaxE (fun j => divE (masked6 i j) (Real.sqrt 2))

/-! ## Standalone mask-then-scale / scale-then-mask operators

The two orders compared by the step-order claim, on an arbitrary
`[n, n]` score matrix: `maskFill` is the causal
`masked_fill(mask.bool(), -inf)`, `scaleMat` divides a real matrix
entrywise by a scalar, `scaleMatE` divides a masked (`EReal`) matrix
entrywise by a scalar with IEEE `-inf` semantics. -/

def maskFill {n : ℕ} (S : Fin n → Fin n → ℝ) : Fin n → Fin n → EReal :=
  fun i j => if (i : ℕ) < (j : ℕ) then ⊥ else ((S i j : ℝ) : EReal)

def scaleMat {n : ℕ} (S : Fin n → Fin n → ℝ) (c : ℝ) : Fin n → Fin n → ℝ :=
  fun i j => S i j / c

def scaleMatE {n : ℕ} (S : Fin n → Fin n → EReal) (c : ℝ) : Fin n → Fin n → EReal :=
  fun i j => divE (S i j) c

/-! ## Concrete instances used by witness theorems -/

def zeroLin : Linear 1 1 := ⟨fun _ _ => 0, fun _ => 0⟩

def cMHA1 : MultiHeadAttention 1 1 1 1 := ⟨zeroLin, zeroLin, zeroLin, zeroLin⟩

def cMHA2 : MultiHeadAttention 1 1 1 2 := ⟨zeroLin, zeroLin, zeroLin, zeroLin⟩

def cX1 : Fin 1 → Fin 1 → Fin 1 → ℝ := fun _ _ _ => 0

def cX2 : Fin 1 → Fin 2 → Fin 1 → ℝ := fun _ _ _ => 0

def cY2 : Fin 1 → Fin 2 → Fin 1 → ℝ := fun _ t _ => if (t : ℕ) = 0 then 0 else 1

def cX3 : Fin 1 → Fin 3 → Fin 1 → ℝ := fun _ _ _ => 0

/-! # Theorems -/

/-! ## Basic facts about the `EReal` helpers and softmax -/

@[simp] theorem expE_bot : expE ⊥ = 0 := by simp [expE]

@[simp] theorem expE_coe (a : ℝ) : expE ((a : EReal)) = Real.exp a := by
  simp [expE, EReal.toReal_coe]

@[simp] theorem divE_coe (a c : ℝ) : divE ((a : EReal)) c = ((a / c : ℝ) : EReal) := by
  simp [divE]

theorem divE_bot_of_pos {c : ℝ} (hc : 0 < c) : divE ⊥ c = ⊥ := by
  simp [divE, hc]

theorem expE_nonneg (x : EReal) : 0 ≤ expE x := by
  unfold expE
  split_ifs <;> first | rfl | exact (Real.exp_pos _).le

theorem softmaxE_nonneg {n : ℕ} (s : Fin n → EReal) (j : Fin n) :
    0 ≤ softmaxE s j :=
  div_nonneg (expE_nonneg _) (Finset.sum_nonneg fun k _ => expE_nonneg _)

theorem softmaxE_le_one {n : ℕ} (s : Fin n → EReal) (j : Fin n) :
    softmaxE s j ≤ 1 :=
  div_le_one_of_le₀
    (Finset.single_le_sum (fun k _ => expE_nonneg (s k)) (Finset.mem_univ j))
    (Finset.sum_nonneg fun k _ => expE_nonneg _)

theorem softmaxE_sum_eq_one {n : ℕ} (s : Fin n → EReal)
    (hpos : 0 < ∑ k, expE (s k)) : ∑ j, softmaxE s j = 1 := by
  unfold softmaxE
  rw [← Finset.sum_div, div_self (ne_of_gt hpos)]

theorem softmaxE_eq_zero {n : ℕ} (s : Fin n → EReal) (j : Fin n)
    (hj : s j = ⊥) : softmaxE s j = 0 := by
  unfold softmaxE
  rw [hj, expE_bot, zero_div]

/-! ## The effective mask -/

theorem effMask_iff_of_le {ctx n : ℕ} (hn : n ≤ ctx) (i j : Fin n) :
    effMask ctx n i j ↔ (i : ℕ) < (j : ℕ) := by
  have hm : min n ctx = n := Nat.min_eq_left hn
  unfold effMask triuOnes
  rw [dif_pos hm]
  by_cases hij : (i : ℕ) < (j : ℕ) <;> simp [hij]

theorem not_effMask_of_ctx_one {n : ℕ} (i j : Fin n) (hn : 1 < n) :
    ¬ effMask 1 n i j := by
  have hm : min n 1 = 1 := by omega
  have hm2 : ¬ min n 1 = n := by omega
  unfold effMask triuOnes
  rw [dif_neg hm2, dif_pos hm]
  simp

/-! ## Head split/merge -/

theorem finPair_finHead_finSub {nH hd : ℕ} (f : Fin (nH * hd)) :
    finPair (finHead f) (finSub f) = f := by
  apply Fin.ext
  show f.1 / hd * hd + f.1 % hd = f.1
  have h := Nat.div_add_mod f.1 hd
  rw [Nat.mul_comm hd (f.1 / hd)] at h
  exact h

/-! ## Attention-weight row facts -/

namespace MultiHeadAttention

variable {dIn nH hd ctx b n : ℕ}

theorem maskedScores_bot (M : MultiHeadAttention dIn nH hd ctx)
    (X : Fin b → Fin n → Fin dIn → ℝ) {bi : Fin b} {h : Fin nH} {i j : Fin n}
    (hn : n ≤ ctx) (hij : (i : ℕ) < (j : ℕ)) :
    M.maskedScores X bi h i j = ⊥ := by
  unfold maskedScores
  rw [if_pos ((effMask_iff_of_le hn i j).mpr hij)]

theorem maskedScores_coe (M : MultiHeadAttention dIn nH hd ctx)
    (X : Fin b → Fin n → Fin dIn → ℝ) {bi : Fin b} {h : Fin nH} {i j : Fin n}
    (hn : n ≤ ctx) (hij : ¬ (i : ℕ) < (j : ℕ)) :
    M.maskedScores X bi h i j = ((M.attnScores X bi h i j : ℝ) : EReal) := by
  unfold maskedScores
  rw [if_neg (fun hm => hij ((effMask_iff_of_le hn i j).mp hm))]

theorem sqrt_headDim_pos {hd : ℕ} (hhd : 0 < hd) : 0 < Real.sqrt hd :=
  Real.sqrt_pos.mpr (by exact_mod_cast hhd)

/-- Each term `exp(score / sqrt hd)` of a softmax denominator is zero at
a masked position and positive at an unmasked one. -/
theorem expE_scaled_masked (M : MultiHeadAttention dIn nH hd ctx)
    (X : Fin b → Fin n → Fin dIn → ℝ) {bi : Fin b} {h : Fin nH} {i j : Fin n}
    (hn : n ≤ ctx) (hhd : 0 < hd) (hij : (i : ℕ) < (j : ℕ)) :
    expE (divE (M.maskedScores X bi h i j) (Real.sqrt hd)) = 0 := by
  rw [M.maskedScores_bot X hn hij, divE_bot_of_pos (sqrt_headDim_pos hhd), expE_bot]

theorem expE_scaled_unmasked (M : MultiHeadAttention dIn nH hd ctx)
    (X : Fin b → Fin n → Fin dIn → ℝ) {bi : Fin b} {h : Fin nH} {i j : Fin n}
    (hn : n ≤ ctx) (hij : ¬ (i : ℕ) < (j : ℕ)) :
    expE (divE (M.maskedScores X bi h i j) (Real.sqrt hd)) =
      Real.exp (M.attnScores X bi h i j / Real.sqrt hd) := by
  rw [M.maskedScores_coe X hn hij, divE_coe, expE_coe]

theorem denom_pos (M : MultiHeadAttention dIn nH hd ctx)
    (X : Fin b → Fin n → Fin dIn → ℝ) (bi : Fin b) (h : Fin nH) (i : Fin n)
    (hn : n ≤ ctx) (hhd : 0 < hd) :
    0 < ∑ k, expE (divE (M.maskedScores X bi h i k) (Real.sqrt hd)) := by
  apply Finset.sum_pos' (fun k _ => expE_nonneg _)
  refine ⟨i, Finset.mem_univ i, ?_⟩
  rw [M.expE_scaled_unmasked X hn (lt_irrefl (i : ℕ))]
  exact Real.exp_pos _

theorem attnWeights_sum_one (M : MultiHeadAttention dIn nH hd ctx)
    (X : Fin b → Fin n → Fin dIn → ℝ) (bi : Fin b) (h : Fin nH) (i : Fin n)
    (hn : n ≤ ctx) (hhd : 0 < hd) :
    ∑ j, M.attnWeights X bi h i j = 1 :=
  softmaxE_sum_eq_one _ (M.denom_pos X bi h i hn hhd)

theorem attnWeights_future_zero (M : MultiHeadAttention dIn nH hd ctx)
    (X : Fin b → Fin n → Fin dIn → ℝ) {bi : Fin b} {h : Fin nH} {i j : Fin n}
    (hn : n ≤ ctx) (hhd : 0 < hd) (hij : (i : ℕ) < (j : ℕ)) :
    M.attnWeights X bi h i j = 0 :=
  softmaxE_eq_zero _ _
    (by rw [M.maskedScores_bot X hn hij]; exact divE_bot_of_pos (sqrt_headDim_pos hhd))

end MultiHeadAttention

/-! ## Claim theorems -/

/-- C1: for every input with `sequence_length ≤ context_length` (and a
positive `head_dim`, as any constructible configuration has), every row
of the post-mask post-softmax attention-weight matrix produced inside
`MultiHeadAttention.forward` sums to exactly 1, every entry lies in
`[0, 1]`, and every entry strictly above the diagonal (`j > i`) is
exactly 0.  Over exact reals the row sum is exact, which implies the
spec's floating-point-tolerance phrasing. -/
theorem attnWeights_row_stochastic_causal {dIn nH hd ctx b n : ℕ}
    (M : LLM.MultiHeadAttention dIn nH hd ctx) (X : Fin b → Fin n → Fin dIn → ℝ)
    (hn : n ≤ ctx) (hhd : 0 < hd) (bi : Fin b) (h : Fin nH) (i : Fin n) :
    (∑ j, M.attnWeights X bi h i j = 1)
    ∧ (∀ j, 0 ≤ M.attnWeights X bi h i j ∧ M.attnWeights X bi h i j ≤ 1)
    ∧ (∀ j : Fin n, (i : ℕ) < (j : ℕ) → M.attnWeights X bi h i j = 0) :=
  ⟨M.attnWeights_sum_one X bi h i hn hhd,
   fun j => ⟨softmaxE_nonneg _ j, softmaxE_le_one _ j⟩,
   fun _ hij => M.attnWeights_future_zero X hn hhd hij⟩

/-- Witness for C1 at a concrete configuration and input. -/
theorem attnWeights_row_stochastic_causal_witness :
    (1 ≤ 1 ∧ 0 < 1)
    ∧ ((∑ j, LLM.cMHA1.attnWeights LLM.cX1 0 0 0 j = 1)
       ∧ (∀ j, 0 ≤ LLM.cMHA1.attnWeights LLM.cX1 0 0 0 j
             ∧ LLM.cMHA1.attnWeights LLM.cX1 0 0 0 j ≤ 1)
       ∧ (∀ j : Fin 1, ((0 : Fin 1) : ℕ) < (j : ℕ) → LLM.cMHA1.attnWeights LLM.cX1 0 0 0 j = 0)) :=
  ⟨⟨le_refl 1, Nat.zero_lt_one⟩,
   attnWeights_row_stochastic_causal LLM.cMHA1 LLM.cX1 (le_refl 1) Nat.zero_lt_one 0 0 0⟩

/-- C3: the head split used in `MultiHeadAttention.forward`
(`view` to `[b, n, num_heads, head_dim]`, then `transpose(1, 2)`)
followed by the merge (`transpose(1, 2)` back, then `view` flattening
`[num_heads, head_dim]` to `[d_out]`), with no attention in between,
reproduces the original `[b, n, d_out]` tensor element for element. -/
theorem merge_split_roundtrip {b n nH hd : ℕ} (T : Fin b → Fin n → Fin (nH * hd) → ℝ) :
    LLM.MultiHeadAttention.mergeHeads (LLM.MultiHeadAttention.splitHeads T) = T := by
  funext bi t f
  show T bi t (LLM.finPair (LLM.finHead f) (LLM.finSub f)) = T bi t f
  rw [LLM.finPair_finHead_finSub]

/-- Fidelity link: for a legal sequence length the forward pass's
in-place mask fill is exactly the standalone causal `maskFill` applied
to the raw score matrix. -/
theorem maskedScores_eq_maskFill {dIn nH hd ctx b n : ℕ}
    (M : LLM.MultiHeadAttention dIn nH hd ctx) (X : Fin b → Fin n → Fin dIn → ℝ)
    (hn : n ≤ ctx) (bi : Fin b) (h : Fin nH) :
    M.maskedScores X bi h = maskFill (M.attnScores X bi h) := by
  funext i j
  by_cases hij : (i : ℕ) < (j : ℕ)
  · rw [M.maskedScores_bot X hn hij]
    unfold maskFill
    rw [if_pos hij]
  · rw [M.maskedScores_coe X hn hij]
    unfold maskFill
    rw [if_neg hij]

/-- C4: for every score matrix and every positive scale factor `c`,
masking (causal `-inf` fill) then dividing by `c` equals dividing by `c`
then masking; in particular masked entries are still `-inf` after the
division, so the two orders give identical softmax outputs. -/
theorem mask_scale_order_invariant {n : ℕ} (S : Fin n → Fin n → ℝ) (c : ℝ)
    (hc : 0 < c) :
    scaleMatE (maskFill S) c = maskFill (scaleMat S c)
    ∧ (∀ i j : Fin n, (i : ℕ) < (j : ℕ) → scaleMatE (maskFill S) c i j = ⊥)
    ∧ (∀ i : Fin n,
        softmaxE (fun j => scaleMatE (maskFill S) c i j) =
        softmaxE (fun j => maskFill (scaleMat S c) i j)) := by
  have hmain : scaleMatE (maskFill S) c = maskFill (scaleMat S c) := by
    funext i j
    unfold scaleMatE maskFill scaleMat
    by_cases hij : (i : ℕ) < (j : ℕ)
    · rw [if_pos hij, if_pos hij, divE_bot_of_pos hc]
    · rw [if_neg hij, if_neg hij, divE_coe]
  refine ⟨hmain, fun i j hij => ?_, fun i => by rw [hmain]⟩
  rw [hmain]
  unfold maskFill
  rw [if_pos hij]

/-- Witness for C4 at a concrete matrix and scale. -/
theorem mask_scale_order_invariant_witness :
    (0 : ℝ) < 2
    ∧ (scaleMatE (maskFill (fun _ _ : Fin 2 => (1 : ℝ))) 2 =
         maskFill (scaleMat (fun _ _ : Fin 2 => (1 : ℝ)) 2)
       ∧ (∀ i j : Fin 2, (i : ℕ) < (j : ℕ) →
            scaleMatE (maskFill (fun _ _ : Fin 2 => (1 : ℝ))) 2 i j = ⊥)
       ∧ (∀ i : Fin 2,
            softmaxE (fun j => scaleMatE (maskFill (fun _ _ : Fin 2 => (1 : ℝ))) 2 i j) =
            softmaxE (fun j => maskFill (scaleMat (fun _ _ : Fin 2 => (1 : ℝ)) 2) i j))) :=
  ⟨by norm_num, mask_scale_order_invariant (fun _ _ => 1) 2 (by norm_num)⟩

/-- C5: `TransformerBlock.forward` computes exactly the spec's
composition — first residual branch `norm1`, attention, dropout, add the
saved input; second residual branch `norm2`, feed-forward, dropout, add —
for every input, every dropout transform, and every parameter set.
(Shape preservation holds by the very type of `forward`: the result is
indexed by the same `[batch, sequence_length, d_model]` axes as `x`.) -/
theorem transformerBlock_forward_is_spec_composition {nH hd ctx b n : ℕ}
    (T : TransformerBlock nH hd ctx)
    (ds : (Fin b → Fin n → Fin (nH * hd) → ℝ) → Fin b → Fin n → Fin (nH * hd) → ℝ)
    (dw : (Fin b → Fin nH → Fin n → Fin n → ℝ) → Fin b → Fin nH → Fin n → Fin n → ℝ)
    (x : Fin b → Fin n → Fin (nH * hd) → ℝ) :
    T.forward ds dw x = T.specForward ds dw x := rfl

/-- C10: `SelfAttention_v1.forward` and `SelfAttention_v2.forward`
(the latter built with `qkv_bias = False` and each `nn.Linear` weight
equal to the transpose of the corresponding v1 parameter matrix) compute
the same output on every input. -/
theorem selfAttention_v1_v2_equiv {dIn dOut n : ℕ} (A : SelfAttention_v1 dIn dOut)
    (x : Fin n → Fin dIn → ℝ) :
    SelfAttention_v2.forward
      ⟨fun o k => A.W_query k o, fun o k => A.W_key k o, fun o k => A.W_value k o⟩ x
    = A.forward x := rfl

/-! ## Causality helpers: the row of interest only reads past rows -/

namespace MultiHeadAttention

variable {dIn nH hd ctx b n : ℕ}

theorem attnScores_congr (M : MultiHeadAttention dIn nH hd ctx)
    {X Y : Fin b → Fin n → Fin dIn → ℝ} {bi : Fin b} {h : Fin nH} {i j : Fin n}
    (hi : X bi i = Y bi i) (hj : X bi j = Y bi j) :
    M.attnScores X bi h i j = M.attnScores Y bi h i j := by
  unfold attnScores queriesH keysH splitHeads queries keys
  rw [hi, hj]

theorem maskedScores_row_congr (M : MultiHeadAttention dIn nH hd ctx)
    {X Y : Fin b → Fin n → Fin dIn → ℝ} (i : Fin n) (hn : n ≤ ctx)
    (hagree : ∀ (bi : Fin b) (t : Fin n), (t : ℕ) ≤ (i : ℕ) → X bi t = Y bi t)
    {bi : Fin b} {h : Fin nH} {t : Fin n} (ht : (t : ℕ) ≤ (i : ℕ)) (k : Fin n) :
    M.maskedScores X bi h t k = M.maskedScores Y bi h t k := by
  by_cases hm : (t : ℕ) < (k : ℕ)
  · rw [M.maskedScores_bot X hn hm, M.maskedScores_bot Y hn hm]
  · rw [M.maskedScores_coe X hn hm, M.maskedScores_coe Y hn hm]
    have hk : (k : ℕ) ≤ (t : ℕ) := Nat.le_of_not_lt hm
    exact congrArg (fun r : ℝ => ((r : EReal)))
      (M.attnScores_congr (hagree bi t ht) (hagree bi k (le_trans hk ht)))

theorem attnWeights_row_congr (M : MultiHeadAttention dIn nH hd ctx)
    {X Y : Fin b → Fin n → Fin dIn → ℝ} (i : Fin n) (hn : n ≤ ctx)
    (hagree : ∀ (bi : Fin b) (t : Fin n), (t : ℕ) ≤ (i : ℕ) → X bi t = Y bi t)
    {bi : Fin b} {h : Fin nH} {t : Fin n} (ht : (t : ℕ) ≤ (i : ℕ)) :
    M.attnWeights X bi h t = M.attnWeights Y bi h t := by
  unfold attnWeights
  have hrow : (fun j => divE (M.maskedScores X bi h t j) (Real.sqrt hd)) =
      (fun j => divE (M.maskedScores Y bi h t j) (Real.sqrt hd)) := by
    funext k
    rw [M.maskedScores_row_congr i hn hagree ht k]
  rw [hrow]

theorem valuesH_congr (M : MultiHeadAttention dIn nH hd ctx)
    {X Y : Fin b → Fin n → Fin dIn → ℝ} {bi : Fin b} {h : Fin nH} {j : Fin n}
    {d : Fin hd} (hj : X bi j = Y bi j) :
    M.valuesH X bi h j d = M.valuesH Y bi h j d := by
  unfold valuesH splitHeads values
  rw [hj]

theorem headContext_congr (M : MultiHeadAttention dIn nH hd ctx)
    {X Y : Fin b → Fin n → Fin dIn → ℝ} (i : Fin n) (hn : n ≤ ctx) (hhd : 0 < hd)
    (hagree : ∀ (bi : Fin b) (t : Fin n), (t : ℕ) ≤ (i : ℕ) → X bi t = Y bi t)
    {bi : Fin b} {h : Fin nH} {t : Fin n} (ht : (t : ℕ) ≤ (i : ℕ)) (d : Fin hd) :
    M.headContext id X bi h t d = M.headContext id Y bi h t d := by
  show (∑ j, M.attnWeights X bi h t j * M.valuesH X bi h j d)
      = ∑ j, M.attnWeights Y bi h t j * M.valuesH Y bi h j d
  rw [M.attnWeights_row_congr i hn hagree ht]
  refine Finset.sum_congr rfl (fun j _ => ?_)
  by_cases hj : (j : ℕ) ≤ (t : ℕ)
  · rw [M.valuesH_congr (hagree bi j (le_trans hj ht))]
  · have hzero : M.attnWeights Y bi h t j = 0 :=
      M.attnWeights_future_zero Y hn hhd (Nat.lt_of_not_le hj)
    rw [hzero, zero_mul, zero_mul]

end MultiHeadAttention

/-- C2: causal noninterference of `MultiHeadAttention.forward` with
dropout disabled (the dropout transform is the identity).  For every
position `i` and any two batched inputs that agree on all token rows at
positions `≤ i` (they may differ arbitrarily at positions `> i`), the
forward outputs agree at every position `≤ i`: changing future inputs
never changes past outputs.  Stated for valid sequence lengths
(`n ≤ context_length`) and a constructible head size (`0 < head_dim`). -/
theorem mha_forward_causal_noninterference {dIn nH hd ctx b n : ℕ}
    (M : LLM.MultiHeadAttention dIn nH hd ctx)
    (X Y : Fin b → Fin n → Fin dIn → ℝ) (i : Fin n)
    (hn : n ≤ ctx) (hhd : 0 < hd)
    (hagree : ∀ (bi : Fin b) (t : Fin n), (t : ℕ) ≤ (i : ℕ) → X bi t = Y bi t) :
    ∀ (bi : Fin b) (t : Fin n), (t : ℕ) ≤ (i : ℕ) →
      M.forward id X bi t = M.forward id Y bi t := by
  intro bi t ht
  show M.out_proj.forward (MultiHeadAttention.mergeHeads (M.headContext id X) bi t)
      = M.out_proj.forward (MultiHeadAttention.mergeHeads (M.headContext id Y) bi t)
  refine congrArg M.out_proj.forward ?_
  funext f
  exact M.headContext_congr i hn hhd hagree ht (finSub f)

/-- Witness for C2: a concrete module with two inputs that agree at
position 0 and differ at the future position 1. -/
theorem mha_forward_causal_noninterference_witness :
    ((2 : ℕ) ≤ 2 ∧ 0 < 1
     ∧ (∀ (bi : Fin 1) (t : Fin 2), (t : ℕ) ≤ ((0 : Fin 2) : ℕ) → cX2 bi t = cY2 bi t))
    ∧ (∀ (bi : Fin 1) (t : Fin 2), (t : ℕ) ≤ ((0 : Fin 2) : ℕ) →
        cMHA2.forward id cX2 bi t = cMHA2.forward id cY2 bi t) := by
  have hagree : ∀ (bi : Fin 1) (t : Fin 2), (t : ℕ) ≤ ((0 : Fin 2) : ℕ) →
      cX2 bi t = cY2 bi t := by
    intro bi t ht
    funext d
    have h0 : (t : ℕ) = 0 := Nat.le_zero.mp ht
    simp [cX2, cY2, h0]
  exact ⟨⟨le_refl 2, Nat.zero_lt_one, hagree⟩,
    mha_forward_causal_noninterference cMHA2 cX2 cY2 0 (le_refl 2) Nat.zero_lt_one hagree⟩

/-! ## LayerNorm normalization facts -/

theorem lnEps_pos : 0 < lnEps := by norm_num [lnEps]

theorem rowVar_nonneg {d : ℕ} (x : Fin d → ℝ) : 0 ≤ rowVar x :=
  div_nonneg (Finset.sum_nonneg fun k _ => sq_nonneg _) (Nat.cast_nonneg d)

theorem rowMean_normRow {d : ℕ} (x : Fin d → ℝ) : rowMean (normRow x) = 0 := by
  unfold rowMean normRow
  rw [← Finset.sum_div]
  have hs : ∑ k, (x k - rowMean x) = 0 := by
    rw [Finset.sum_sub_distrib, Finset.sum_const, Finset.card_univ, Fintype.card_fin,
      nsmul_eq_mul]
    unfold rowMean
    rcases Nat.eq_zero_or_pos d with h0 | hpos
    · subst h0
      simp
    · have hd0 : (d : ℝ) ≠ 0 := Nat.cast_ne_zero.mpr (Nat.pos_iff_ne_zero.mp hpos)
      field_simp
  rw [hs, zero_div, zero_div]

theorem rowVar_add_eps_pos {d : ℕ} (x : Fin d → ℝ) : 0 < rowVar x + lnEps :=
  lt_of_lt_of_le lnEps_pos (le_add_of_nonneg_left (rowVar_nonneg x))

theorem rowVar_normRow {d : ℕ} (x : Fin d → ℝ) :
    rowVar (normRow x) = rowVar x / (rowVar x + lnEps) := by
  have hσ : Real.sqrt (rowVar x + lnEps) ^ 2 = rowVar x + lnEps :=
    Real.sq_sqrt (rowVar_add_eps_pos x).le
  have hexp : ∀ k, normRow x k ^ 2 = (x k - rowMean x) ^ 2 / (rowVar x + lnEps) := by
    intro k
    unfold normRow
    rw [div_pow, hσ]
  calc rowVar (normRow x)
      = (∑ k, (normRow x k - 0) ^ 2) / d := by unfold rowVar; rw [rowMean_normRow]
    _ = (∑ k, (x k - rowMean x) ^ 2 / (rowVar x + lnEps)) / d := by
        congr 1
        refine Finset.sum_congr rfl fun k _ => ?_
        rw [sub_zero, hexp k]
    _ = ((∑ k, (x k - rowMean x) ^ 2) / (rowVar x + lnEps)) / d := by
        rw [← Finset.sum_div]
    _ = ((∑ k, (x k - rowMean x) ^ 2) / d) / (rowVar x + lnEps) := by ring
    _ = rowVar x / (rowVar x + lnEps) := rfl

/-- C6 (amended): for every input row, the normalized value computed
inside `LayerNorm.forward` before scale and shift has mean exactly 0,
and its biased variance equals `v / (v + eps)` where `v` is the row's
biased variance and `eps = 1e-5`; hence the variance is within
`eps / (v + eps)` of 1.  (For rows whose variance is not small this is
the spec's "1 within tolerance"; it is NOT within tolerance for
(near-)constant rows — see the counterexample theorem.) -/
theorem layerNorm_normRow_mean_var {d : ℕ} (x : Fin d → ℝ) :
    rowMean (normRow x) = 0
    ∧ rowVar (normRow x) = rowVar x / (rowVar x + lnEps)
    ∧ |rowVar (normRow x) - 1| ≤ lnEps / (rowVar x + lnEps) := by
  refine ⟨rowMean_normRow x, rowVar_normRow x, ?_⟩
  rw [rowVar_normRow x]
  have hv : 0 < rowVar x + lnEps := rowVar_add_eps_pos x
  have hdiff : rowVar x / (rowVar x + lnEps) - 1 = -(lnEps / (rowVar x + lnEps)) := by
    field_simp
  rw [hdiff, abs_neg, abs_of_nonneg (div_nonneg lnEps_pos.le hv.le)]

/-- C6 counterexample: on the constant row `(3, 3)` the normalized
values are all 0, so their biased variance is 0, which is not within any
reasonable tolerance (not even 1/2) of 1.  The claim's "variance is 1
within tolerance for every input row" fails on constant rows. -/
theorem layerNorm_const_row_var_not_one :
    normRow (fun _ : Fin 2 => (3 : ℝ)) = (fun _ => 0)
    ∧ rowVar (normRow (fun _ : Fin 2 => (3 : ℝ))) = 0
    ∧ ¬ |rowVar (normRow (fun _ : Fin 2 => (3 : ℝ))) - 1| ≤ 1 / 2 := by
  have h1 : normRow (fun _ : Fin 2 => (3 : ℝ)) = fun _ => 0 := by
    funext k
    unfold normRow rowMean
    norm_num [Fin.sum_univ_two]
  have h2 : rowVar (normRow (fun _ : Fin 2 => (3 : ℝ))) = 0 := by
    rw [h1]
    unfold rowVar rowMean
    norm_num [Fin.sum_univ_two]
  refine ⟨h1, h2, ?_⟩
  rw [h2]
  norm_num

/-! ## Construction and shape-check characterizations -/

/-- C7 (amended): construction succeeds iff the assert's divisibility
check passes (`num_heads ≠ 0` and `d_out % num_heads = 0` in Python's
floored `%`) and the torch-level validations pass (`d_in`, `d_out`,
`context_length` nonnegative, dropout rate in `[0, 1]`).  In particular
the only dimension checks are for NEGATIVE values: zero-sized
dimensions, and a negative `num_heads` dividing `d_out`, build a module. -/
theorem mhaInit_ok_iff (dIn dOut ctx : ℤ) (p : ℝ) (nH : ℤ) :
    (∃ hdim, mhaInit dIn dOut ctx p nH = Except.ok hdim)
    ↔ (nH ≠ 0 ∧ Int.fmod dOut nH = 0 ∧ 0 ≤ dIn ∧ 0 ≤ dOut
       ∧ 0 ≤ p ∧ p ≤ 1 ∧ 0 ≤ ctx) := by
  unfold mhaInit
  split_ifs with h1 h2 h3 h4 h5
  · constructor
    · rintro ⟨hdim, hh⟩
      cases hh
    · rintro ⟨hne, -⟩
      exact absurd h1 hne
  · constructor
    · rintro ⟨hdim, hh⟩
      cases hh
    · rintro ⟨-, -, hdi, hdo, -⟩
      rcases h3 with h | h <;> omega
  · constructor
    · rintro ⟨hdim, hh⟩
      cases hh
    · rintro ⟨-, -, -, -, hp0, hp1, -⟩
      rcases h4 with h | h <;> linarith
  · constructor
    · rintro ⟨hdim, hh⟩
      cases hh
    · rintro ⟨-, -, -, -, -, -, hc⟩
      omega
  · constructor
    · intro _
      push_neg at h3 h4
      exact ⟨h1, h2, h3.1, h3.2, h4.1, h4.2, by omega⟩
    · intro _
      exact ⟨_, rfl⟩
  · constructor
    · rintro ⟨hdim, hh⟩
      cases hh
    · rintro ⟨-, hmod, -⟩
      exact absurd hmod h2

/-- C7 counterexample: `d_in = 0` is non-positive, yet
`MultiHeadAttention(d_in=0, d_out=2, context_length=4, dropout=0,
num_heads=1)` passes every constructor check and the module is built
(with `head_dim = 2`).  The claim that any non-positive declared
dimension prevents construction is false. -/
theorem mhaInit_zero_dim_builds : mhaInit 0 2 4 0 1 = Except.ok 2 := by
  unfold mhaInit
  rw [if_neg (by decide : ¬(1 : ℤ) = 0)]
  rw [if_pos (by decide : Int.fmod 2 1 = 0)]
  rw [if_neg (by decide : ¬((0 : ℤ) < 0 ∨ (2 : ℤ) < 0))]
  rw [if_neg (by norm_num : ¬((0 : ℝ) < 0 ∨ 1 < (0 : ℝ)))]
  rw [if_neg (by decide : ¬(4 : ℤ) < 0)]
  rw [show Int.fdiv 2 1 = 2 by decide]

/-- C8 (amended): `MultiHeadAttention.forward` raises the torch
`RuntimeError` (from the `masked_fill_` broadcast of the clamp-sliced
mask) exactly when the sequence length exceeds `context_length` AND
`context_length ≠ 1`.  With `context_length = 1 < n` the size-1 sliced
mask broadcasts legally and the forward pass silently completes (with no
masking at all) instead of raising.  In the embedding the module state
is immutable, so no error path can mutate parameters or the mask. -/
theorem mhaForwardChecked_error_iff {dIn nH hd ctx b n : ℕ}
    (M : LLM.MultiHeadAttention dIn nH hd ctx)
    (dw : (Fin b → Fin nH → Fin n → Fin n → ℝ) → Fin b → Fin nH → Fin n → Fin n → ℝ)
    (X : Fin b → Fin n → Fin dIn → ℝ) :
    M.forwardChecked dw X = Except.error PyError.runtimeError
    ↔ (ctx < n ∧ ctx ≠ 1) := by
  unfold MultiHeadAttention.forwardChecked
  split_ifs with h
  · constructor
    · intro hh
      cases hh
    · intro hh
      exfalso
      omega
  · constructor
    · intro _
      omega
    · intro _
      rfl

/-- C8 counterexample: with `context_length = 1` and sequence length 2
(sequence length exceeds the mask's context length) the forward pass
does NOT raise: it returns a normal result, and the effective mask is
empty (entry `(0, 1)` is unmasked), i.e. the computation silently runs
without causal masking rather than surfacing a shape error. -/
theorem mhaForwardChecked_ctx_one_silent :
    cMHA1.forwardChecked id cX2 = Except.ok (cMHA1.forward id cX2)
    ∧ ¬ effMask 1 2 0 1 := by
  constructor
  · unfold MultiHeadAttention.forwardChecked
    rw [if_pos (Or.inr (by omega : min 2 1 = 1))]
  · exact not_effMask_of_ctx_one 0 1 Nat.one_lt_two

/-! ## The concrete 6 x 6 scenario -/

theorem softmaxE_masked_const_row {n : ℕ} (s : Fin n → EReal) (a c : ℝ) (hc : 0 < c)
    (P : Fin n → Prop) [DecidablePred P]
    (hs : ∀ k, s k = if P k then ((a : ℝ) : EReal) else ⊥)
    (m : ℕ) (hm : (univ.filter P).card = m) (hm0 : 0 < m) (j : Fin n) :
    softmaxE (fun k => divE (s k) c) j = if P j then 1 / (m : ℝ) else 0 := by
  have hterm : ∀ k, expE (divE (s k) c) = if P k then Real.exp (a / c) else 0 := by
    intro k
    rw [hs k]
    by_cases hP : P k
    · rw [if_pos hP, if_pos hP, divE_coe, expE_coe]
    · rw [if_neg hP, if_neg hP, divE_bot_of_pos hc, expE_bot]
  have hsum : (∑ k, expE (divE (s k) c)) = (m : ℝ) * Real.exp (a / c) := by
    calc (∑ k, expE (divE (s k) c))
        = ∑ k, (if P k then Real.exp (a / c) else 0) :=
          Finset.sum_congr rfl (fun k _ => hterm k)
      _ = ((univ.filter P).card : ℝ) * Real.exp (a / c) := by
          rw [Finset.sum_ite, Finset.sum_const, Finset.sum_const_zero, add_zero,
            nsmul_eq_mul]
      _ = (m : ℝ) * Real.exp (a / c) := by rw [hm]
  unfold softmaxE
  rw [hterm j, hsum]
  by_cases hP : P j
  · rw [if_pos hP, if_pos hP]
    have hexp := Real.exp_ne_zero (a / c)
    have hmR : (m : ℝ) ≠ 0 := Nat.cast_ne_zero.mpr (Nat.pos_iff_ne_zero.mp hm0)
    field_simp
    ring
  · rw [if_neg hP, if_neg hP, zero_div]

/-- C9: with `context_length = 6` and a `6 × 6` all-ones score matrix,
`masked_fill(torch.triu(ones, diagonal=1).bool(), -inf)` sets exactly
the 15 strictly-above-diagonal entries to `-inf` and leaves exactly the
21 on/below-diagonal entries unchanged (equal to 1), and after the
row-wise softmax, row `i` assigns probability `1 / (i + 1)` to each of
its `i + 1` valid positions and exactly 0 elsewhere. -/
theorem mask_softmax_concrete_six :
    (univ.filter (fun p : Fin 6 × Fin 6 => masked6 p.1 p.2 = ⊥)).card = 15
    ∧ (univ.filter (fun p : Fin 6 × Fin 6 => masked6 p.1 p.2 = ((1 : ℝ) : EReal))).card = 21
    ∧ ∀ i j : Fin 6,
        attnW6 i j = if (j : ℕ) ≤ (i : ℕ) then 1 / (((i : ℕ) : ℝ) + 1) else 0 := by
  have hbot : ∀ i j : Fin 6, masked6 i j = ⊥ ↔ (i : ℕ) < (j : ℕ) := by
    intro i j
    unfold masked6 mask6 triuOnes onesScores6
    by_cases hij : (i : ℕ) < (j : ℕ)
    · rw [if_pos hij, if_pos (one_ne_zero : (1 : ℝ) ≠ 0)]
      exact iff_of_true rfl hij
    · rw [if_neg hij, if_neg (by simp : ¬(0 : ℝ) ≠ 0)]
      exact iff_of_false (EReal.coe_ne_bot 1) hij
  have hone : ∀ i j : Fin 6, masked6 i j = ((1 : ℝ) : EReal) ↔ ¬ (i : ℕ) < (j : ℕ) := by
    intro i j
    unfold masked6 mask6 triuOnes onesScores6
    by_cases hij : (i : ℕ) < (j : ℕ)
    · rw [if_pos hij, if_pos (one_ne_zero : (1 : ℝ) ≠ 0)]
      exact iff_of_false (fun hcon => (EReal.coe_ne_bot 1) hcon.symm) (not_not_intro hij)
    · rw [if_neg hij, if_neg (by simp : ¬(0 : ℝ) ≠ 0)]
      exact iff_of_true rfl hij
  refine ⟨?_, ?_, ?_⟩
  · rw [Finset.filter_congr (fun p _ => hbot p.1 p.2)]
    decide
  · rw [Finset.filter_congr (fun p _ => hone p.1 p.2)]
    decide
  · intro i j
    have hcard : (univ.filter (fun k : Fin 6 => (k : ℕ) ≤ (i : ℕ))).card = (i : ℕ) + 1 := by
      fin_cases i <;> decide
    have hs : ∀ k : Fin 6,
        masked6 i k = if (k : ℕ) ≤ (i : ℕ) then (((1 : ℝ) : ℝ) : EReal) else ⊥ := by
      intro k
      by_cases hk : (k : ℕ) ≤ (i : ℕ)
      · rw [if_pos hk]
        exact (hone i k).mpr (not_lt.mpr hk)
      · rw [if_neg hk]
        exact (hbot i k).mpr (lt_of_not_le hk)
    have := softmaxE_masked_const_row (fun k => masked6 i k) 1 (Real.sqrt 2)
      (Real.sqrt_pos.mpr two_pos) (fun k => (k : ℕ) ≤ (i : ℕ)) hs ((i : ℕ) + 1)
      hcard (Nat.succ_pos _) j
    show softmaxE (fun k => divE (masked6 i k) (Real.sqrt 2)) j = _
    rw [this]
    by_cases hj : (j : ℕ) ≤ (i : ℕ)
    · rw [if_pos hj, if_pos hj]
      push_cast
      ring
    · rw [if_neg hj, if_neg hj]

end LLM
